import Mathlib

/-
Verification development for the circuitmatrix class of teqcgeom
(src/headers/circuitmatrix.h): a quantum circuit represented as a matrix of
cells, with rows as qubit lines and columns as time steps.  The repository
ships only the class header; the method bodies and the cell-code vocabulary
(generaldefines.h) are not part of the sources, so every operation below is
modelled from the specification's description of its behaviour.
-/

namespace Teqc

/-- Modelled from the spec: the cell-code vocabulary of §3 (generaldefines.h is
missing from the sources).  The integer tags are replaced by a closed sum type:
wire, input, distillation-ancilla input, output, initialisation and measurement
bases, and CNOT control/target roles carrying a gate identifier.  The logical
EMPTY code is not a stored cell: it is the read of a coordinate beyond a line's
physical length (spec §3, §4.1). -/
inductive Cell where
  | wire
  | input
  | distillationAncillaInput
  | output
  | initialisation (basis : Nat)
  | measurement (basis : Nat)
  | cnotControl (gateId : Nat)
  | cnotTarget (gateId : Nat)
deriving DecidableEq, Repr

/-- Modelled from the spec: a qubit line is an ordered sequence of cell codes,
one entry per time step (spec §3). -/
abbrev Qubitline : Type := List Cell

/-- Modelled from the spec: the circuitmatrix class, an ordered sequence of
qubit lines (field circ of the header). -/
structure CircuitMatrix where
  circ : List Qubitline
deriving DecidableEq

/-- Modelled from the spec: the result of reading one coordinate — either a
physically stored cell, or the logical EMPTY padding for a column beyond the
line's physical length (spec invariant I2). -/
inductive ReadCell where
  | cell (c : Cell)
  | empty
deriving DecidableEq, Repr

/-- Modelled from the spec: the error taxonomy of §7; OutOfRange is the only
hard failure. -/
inductive Err where
  | outOfRange
deriving DecidableEq, Repr

/-- Modelled from the spec: getNrLines, the number of circuit qubits. -/
def getNrLines (m : CircuitMatrix) : Nat := m.circ.length

/-- Modelled from the spec: size(), equivalent to getNrLines (header line 150). -/
def size (m : CircuitMatrix) : Nat := m.circ.length

/-- Maximum length of the lines in a list (helper for getMaxColumn). -/
def maxLen : List Qubitline → Nat
  | [] => 0
  | ln :: rest => max (List.length ln) (maxLen rest)

/-- Modelled from the spec: getMaxColumn, the maximum physical length of a
qubit line in the circuit (spec §4.1 accessors). -/
def getMaxColumn (m : CircuitMatrix) : Nat := maxLen m.circ

/-- Maximum of a list of naturals (0 on the empty list). -/
def listMax : List Nat → Nat
  | [] => 0
  | a :: rest => max a (listMax rest)

/-- Total read of one coordinate: the stored cell when the coordinate is
physically present, the logical EMPTY otherwise (spec invariant I2). -/
def cellAt (m : CircuitMatrix) (i j : Nat) : ReadCell :=
  match m.circ[i]? with
  | some ln =>
    match ln[j]? with
    | some c => ReadCell.cell c
    | none => ReadCell.empty
  | none => ReadCell.empty

/-- Modelled from the spec: indexLessThanSize, true iff the index is a valid
physical offset into line i (index less than that line's stored length). -/
def indexLessThanSize (m : CircuitMatrix) (i index : Nat) : Bool :=
  decide (index < List.length (m.circ.getD i []))

/-- Classification of a read cell as input: INPUT or DISTILLATION_ANCILLA_INPUT
(spec §4.1, isInput recognises the distillation subtype too). -/
def classInput : ReadCell → Bool
  | ReadCell.cell Cell.input => true
  | ReadCell.cell Cell.distillationAncillaInput => true
  | _ => false

/-- Classification of a read cell as output. -/
def classOutput : ReadCell → Bool
  | ReadCell.cell Cell.output => true
  | _ => false

/-- Classification of a read cell as the distillation-input subtype. -/
def classDist : ReadCell → Bool
  | ReadCell.cell Cell.distillationAncillaInput => true
  | _ => false

/-- Classification of a read cell as a physically stored wire. -/
def classWire : ReadCell → Bool
  | ReadCell.cell Cell.wire => true
  | _ => false

/-- Classification of a read cell as logical EMPTY padding. -/
def classEmpty : ReadCell → Bool
  | ReadCell.empty => true
  | _ => false

/-- Classification of a read cell as an initialisation basis (any variant). -/
def classInit : ReadCell → Bool
  | ReadCell.cell (Cell.initialisation _) => true
  | _ => false

/-- Classification of a read cell as a measurement basis (any variant). -/
def classMeas : ReadCell → Bool
  | ReadCell.cell (Cell.measurement _) => true
  | _ => false

/-- Classification of a read cell as a gate-role cell (CNOT control or target). -/
def classGate : ReadCell → Bool
  | ReadCell.cell (Cell.cnotControl _) => true
  | ReadCell.cell (Cell.cnotTarget _) => true
  | _ => false

/-- Modelled from the spec: the checked coordinate read underlying the
classification predicates (spec §4.1, §7): an index outside the matrix bounds
fails with OutOfRange, while a column beyond the line's physical length but
within the matrix's max column count reads as the EMPTY-equivalent. -/
def readCellE (m : CircuitMatrix) (i j : Nat) : Except Err ReadCell :=
  if i < getNrLines m then
    if j < getMaxColumn m then Except.ok (cellAt m i j)
    else Except.error Err.outOfRange
  else Except.error Err.outOfRange

/-- Modelled from the spec: isInput, true for INPUT or DISTILLATION_ANCILLA_INPUT. -/
def isInput (m : CircuitMatrix) (i j : Nat) : Except Err Bool :=
  (readCellE m i j).map classInput

/-- Modelled from the spec: isOutput, true for OUTPUT. -/
def isOutput (m : CircuitMatrix) (i j : Nat) : Except Err Bool :=
  (readCellE m i j).map classOutput

/-- Modelled from the spec: isDistillationAncillaInput, true only for the
distillation-input subtype. -/
def isDistillationAncillaInput (m : CircuitMatrix) (i j : Nat) : Except Err Bool :=
  (readCellE m i j).map classDist

/-- Modelled from the spec: isWire, true for a physically stored WIRE cell. -/
def isWire (m : CircuitMatrix) (i j : Nat) : Except Err Bool :=
  (readCellE m i j).map classWire

/-- Modelled from the spec: isEmpty, true when the coordinate is beyond the
line's physical length (logical padding). -/
def isEmpty (m : CircuitMatrix) (i j : Nat) : Except Err Bool :=
  (readCellE m i j).map classEmpty

/-- Modelled from the spec: isInitialisation, true for any initialisation basis. -/
def isInitialisation (m : CircuitMatrix) (i j : Nat) : Except Err Bool :=
  (readCellE m i j).map classInit

/-- Modelled from the spec: isMeasurement, true for any measurement basis. -/
def isMeasurement (m : CircuitMatrix) (i j : Nat) : Except Err Bool :=
  (readCellE m i j).map classMeas

/-- Modelled from the spec: the gate-role classification of a coordinate
(CNOT control or target), completing the cell-code partition of spec P1. -/
def isGate (m : CircuitMatrix) (i j : Nat) : Except Err Bool :=
  (readCellE m i j).map classGate

/-- Modelled from the spec: findTarget — requires cell (i,j) to denote a
CNOT_CONTROL with some gateId; scans column j across all lines and returns the
ascending sequence of line indices whose cell at column j is a CNOT_TARGET
sharing that gateId; returns the empty sequence if (i,j) is not a control cell. -/
def findTarget (m : CircuitMatrix) (i j : Nat) : List Nat :=
  match cellAt m i j with
  | ReadCell.cell (Cell.cnotControl g) =>
    (List.range (getNrLines m)).filter fun k =>
      decide (cellAt m k j = ReadCell.cell (Cell.cnotTarget g))
  | _ => []

/-- Modelled from the spec: findControl — symmetric to findTarget; requires
(i,j) to be a CNOT_TARGET and returns the ascending line indices of all
CNOT_CONTROL cells sharing the gateId in that column. -/
def findControl (m : CircuitMatrix) (i j : Nat) : List Nat :=
  match cellAt m i j with
  | ReadCell.cell (Cell.cnotTarget g) =>
    (List.range (getNrLines m)).filter fun k =>
      decide (cellAt m k j = ReadCell.cell (Cell.cnotControl g))
  | _ => []

/-- A read cell that is a wire or logical padding, contributing nothing to a
column (spec §4.1, removeEmptyColumns). -/
def wireOrEmpty : ReadCell → Bool
  | ReadCell.cell Cell.wire => true
  | ReadCell.empty => true
  | _ => false

/-- A column is empty when every line reads WIRE or logically EMPTY there
(spec §4.1, removeEmptyColumns). -/
def columnIsEmpty (m : CircuitMatrix) (j : Nat) : Bool :=
  (List.range (getNrLines m)).all fun i => wireOrEmpty (cellAt m i j)

/-- The ascending list of column indices that removeEmptyColumns keeps: those
below the max column count whose column is not all WIRE/EMPTY. -/
def keptColumns (m : CircuitMatrix) : List Nat :=
  (List.range (getMaxColumn m)).filter fun j => !(columnIsEmpty m j)

/-- Modelled from the spec: removeEmptyColumns — deletes every column j such
that for all lines i the cell (i,j) is WIRE or logically EMPTY; remaining
columns shift left to stay contiguous, relative order preserved. -/
def removeEmptyColumns (m : CircuitMatrix) : CircuitMatrix :=
  CircuitMatrix.mk (m.circ.map fun ln => (keptColumns m).filterMap fun j => ln[j]?)

/-- Recogniser of the WIRE cell code. -/
def isWireCell : Cell → Bool
  | Cell.wire => true
  | _ => false

/-- A line is unused when its physical cells carry no INPUT, OUTPUT,
initialisation, measurement or gate marker, i.e. are all wires
(spec §4.1, removeEmptyRows). -/
def lineIsUnused (ln : Qubitline) : Bool :=
  ln.all isWireCell

/-- Modelled from the spec: removeEmptyRows — deletes every qubit line whose
physical cells are entirely absent of any INPUT, OUTPUT, initialisation,
measurement or gate marker; remaining lines shift up preserving relative order. -/
def removeEmptyRows (m : CircuitMatrix) : CircuitMatrix :=
  CircuitMatrix.mk (m.circ.filter fun ln => !(lineIsUnused ln))

/-- Modelled from the spec: insertRows — splices the given lines immediately
before index beforePosition (0 = prepend, size() = append); lines at or after
that index shift down by the inserted count; fails with OutOfRange if
beforePosition is not in the closed interval from 0 to size(). -/
def insertRows (m : CircuitMatrix) (beforePosition : Int) (rows : List Qubitline) :
    Except Err CircuitMatrix :=
  if 0 ≤ beforePosition ∧ beforePosition ≤ (size m : Int) then
    Except.ok (CircuitMatrix.mk
      (m.circ.take beforePosition.toNat ++ rows ++ m.circ.drop beforePosition.toNat))
  else Except.error Err.outOfRange

/-- Modelled from the spec: the matrix state after an insertRows call — on
failure the matrix is left unchanged in its last valid state (spec §5, §7). -/
def insertRowsExec (m : CircuitMatrix) (beforePosition : Int) (rows : List Qubitline) :
    CircuitMatrix :=
  match insertRows m beforePosition rows with
  | Except.ok m2 => m2
  | Except.error _ => m

/-- Modelled from the spec: insertColumns — inserts nrColumns columns of
wire padding into every line immediately before column beforePosition; all
cells at or after that column shift right uniformly across every line. -/
def insertColumns (m : CircuitMatrix) (beforePosition nrColumns : Nat) : CircuitMatrix :=
  CircuitMatrix.mk (m.circ.map fun ln =>
    ln.take beforePosition ++ List.replicate nrColumns Cell.wire ++ ln.drop beforePosition)

/-- Existence of a CNOT_TARGET partner for gate g in column j (spec I1 helper). -/
def hasTargetFor (m : CircuitMatrix) (j g : Nat) : Bool :=
  (List.range (getNrLines m)).any fun k =>
    decide (cellAt m k j = ReadCell.cell (Cell.cnotTarget g))

/-- Existence of a CNOT_CONTROL partner for gate g in column j (spec I1 helper). -/
def hasControlFor (m : CircuitMatrix) (j g : Nat) : Bool :=
  (List.range (getNrLines m)).any fun k =>
    decide (cellAt m k j = ReadCell.cell (Cell.cnotControl g))

/-- One read cell satisfies invariant I1 locally: a control has a target
partner in its column and vice versa. -/
def cellPartnersOk (m : CircuitMatrix) (j : Nat) : ReadCell → Bool
  | ReadCell.cell (Cell.cnotControl g) => hasTargetFor m j g
  | ReadCell.cell (Cell.cnotTarget g) => hasControlFor m j g
  | _ => true

/-- Modelled from the spec: invariant I1 — within one column, all cells sharing
a gateId have consistent arity (at least one CONTROL and at least one TARGET). -/
def cnotPartnersOk (m : CircuitMatrix) : Bool :=
  (List.range (getNrLines m)).all fun i =>
    (List.range (getMaxColumn m)).all fun j => cellPartnersOk m j (cellAt m i j)

/-- Test whether a classification query returned a successful true. -/
def okTrue : Except Err Bool → Bool
  | Except.ok true => true
  | _ => false

/-- Scenario-A style sample matrix: two lines, a CNOT between them in column 1. -/
def sampleA : CircuitMatrix :=
  CircuitMatrix.mk
    [[Cell.initialisation 0, Cell.cnotControl 1, Cell.measurement 0],
     [Cell.initialisation 0, Cell.cnotTarget 1, Cell.measurement 0]]

/-- Scenario-D style sample matrix: an all-wire column between two gate columns,
and a third line that is shorter than the others. -/
def sampleD : CircuitMatrix :=
  CircuitMatrix.mk
    [[Cell.cnotControl 1, Cell.wire, Cell.cnotControl 2],
     [Cell.cnotTarget 1, Cell.wire, Cell.cnotTarget 2],
     [Cell.input]]

/-- Sample matrix with a wire-only middle line that removeEmptyRows deletes,
while the two gate-carrying lines stay. -/
def sampleE : CircuitMatrix :=
  CircuitMatrix.mk
    [[Cell.cnotControl 1, Cell.wire],
     [Cell.wire, Cell.wire],
     [Cell.cnotTarget 1, Cell.wire]]

/-- Every line of the matrix is no longer than maxLen of the matrix. -/
theorem maxLen_ge {l : List Qubitline} {ln : Qubitline} (h : ln ∈ l) :
    List.length ln ≤ maxLen l := by
  induction l with
  | nil => cases h
  | cons a rest ih =>
    cases h with
    | head => exact le_max_left _ _
    | tail _ hmem => exact le_trans (ih hmem) (le_max_right _ _)

/-- maxLen is the least upper bound of the line lengths. -/
theorem maxLen_le {l : List Qubitline} {K : Nat} (h : ∀ ln ∈ l, List.length ln ≤ K) :
    maxLen l ≤ K := by
  induction l with
  | nil => exact Nat.zero_le K
  | cons a rest ih =>
    exact max_le (h a (List.mem_cons_self a rest))
      (ih fun ln hm => h ln (List.mem_cons_of_mem a hm))

/-- Reading a physical cell means both indices are physically in range. -/
theorem cellAt_eq_cell {m : CircuitMatrix} {i j : Nat} {c : Cell} :
    cellAt m i j = ReadCell.cell c ↔
      ∃ ln, m.circ[i]? = some ln ∧ ln[j]? = some c := by
  unfold cellAt
  cases hl : m.circ[i]? with
  | none => simp
  | some ln =>
    cases hc : ln[j]? with
    | none => simp [hc]
    | some c2 => simp [hc]

/-- A physical cell read implies the line index is in range. -/
theorem lt_nrLines_of_cellAt {m : CircuitMatrix} {i j : Nat} {c : Cell}
    (h : cellAt m i j = ReadCell.cell c) : i < getNrLines m := by
  obtain ⟨ln, hl, _⟩ := cellAt_eq_cell.mp h
  exact (List.getElem?_eq_some_iff.mp hl).fst

/-- A physical cell read implies the column index is below the max column count. -/
theorem lt_maxColumn_of_cellAt {m : CircuitMatrix} {i j : Nat} {c : Cell}
    (h : cellAt m i j = ReadCell.cell c) : j < getMaxColumn m := by
  obtain ⟨ln, hl, hc⟩ := cellAt_eq_cell.mp h
  have hj : j < List.length ln := (List.getElem?_eq_some_iff.mp hc).fst
  have hmem : ln ∈ m.circ := List.mem_iff_getElem?.mpr ⟨i, hl⟩
  exact lt_of_lt_of_le hj (maxLen_ge hmem)

/-- Reading an out-of-range or padding coordinate yields the logical EMPTY. -/
theorem cellAt_eq_empty {m : CircuitMatrix} {i j : Nat} :
    cellAt m i j = ReadCell.empty ↔
      ∀ ln, m.circ[i]? = some ln → ln[j]? = none := by
  unfold cellAt
  cases hl : m.circ[i]? with
  | none => simp
  | some ln =>
    cases hc : ln[j]? with
    | none =>
      simp [hc]
      exact List.getElem?_eq_none_iff.mp hc
    | some c2 =>
      simp [hc]
      exact (List.getElem?_eq_some_iff.mp hc).fst

/-- Reduction of findTarget at a control cell. -/
theorem findTarget_eq_of_control {m : CircuitMatrix} {i j g : Nat}
    (hc : cellAt m i j = ReadCell.cell (Cell.cnotControl g)) :
    findTarget m i j = (List.range (getNrLines m)).filter fun k =>
      decide (cellAt m k j = ReadCell.cell (Cell.cnotTarget g)) := by
  unfold findTarget
  rw [hc]

/-- Reduction of findControl at a target cell. -/
theorem findControl_eq_of_target {m : CircuitMatrix} {i j g : Nat}
    (hc : cellAt m i j = ReadCell.cell (Cell.cnotTarget g)) :
    findControl m i j = (List.range (getNrLines m)).filter fun k =>
      decide (cellAt m k j = ReadCell.cell (Cell.cnotControl g)) := by
  unfold findControl
  rw [hc]

/-- Membership in a findTarget result, at a control cell. -/
theorem mem_findTarget {m : CircuitMatrix} {i j g k : Nat}
    (hc : cellAt m i j = ReadCell.cell (Cell.cnotControl g)) :
    k ∈ findTarget m i j ↔
      k < getNrLines m ∧ cellAt m k j = ReadCell.cell (Cell.cnotTarget g) := by
  rw [findTarget_eq_of_control hc, List.mem_filter, List.mem_range]
  simp

/-- Membership in a findControl result, at a target cell. -/
theorem mem_findControl {m : CircuitMatrix} {i j g k : Nat}
    (hc : cellAt m i j = ReadCell.cell (Cell.cnotTarget g)) :
    k ∈ findControl m i j ↔
      k < getNrLines m ∧ cellAt m k j = ReadCell.cell (Cell.cnotControl g) := by
  rw [findControl_eq_of_target hc, List.mem_filter, List.mem_range]
  simp

/-- Unfolding of the I1 invariant check into a statement about single cells. -/
theorem cnotPartnersOk_spec {m : CircuitMatrix} (hinv : cnotPartnersOk m = true)
    {i j : Nat} (hi : i < getNrLines m) (hj : j < getMaxColumn m) :
    cellPartnersOk m j (cellAt m i j) = true := by
  unfold cnotPartnersOk at hinv
  rw [List.all_eq_true] at hinv
  have h1 := hinv i (List.mem_range.mpr hi)
  rw [List.all_eq_true] at h1
  exact h1 j (List.mem_range.mpr hj)

/-- Unfolding of the target-partner existence check. -/
theorem hasTargetFor_spec {m : CircuitMatrix} {j g : Nat} (h : hasTargetFor m j g = true) :
    ∃ k, k < getNrLines m ∧ cellAt m k j = ReadCell.cell (Cell.cnotTarget g) := by
  unfold hasTargetFor at h
  rw [List.any_eq_true] at h
  obtain ⟨k, hk, hck⟩ := h
  exact ⟨k, List.mem_range.mp hk, of_decide_eq_true hck⟩

/-- C1: partner symmetry — at every CNOT_CONTROL cell of a matrix satisfying
invariant I1, findTarget returns a non-empty strictly ascending list of line
indices, and findControl at each of those lines and the same column contains
the control's line index. -/
theorem C1_partner_symmetry (m : CircuitMatrix) (i j g : Nat)
    (hinv : cnotPartnersOk m = true)
    (hc : cellAt m i j = ReadCell.cell (Cell.cnotControl g)) :
    findTarget m i j ≠ [] ∧ (findTarget m i j).Pairwise (· < ·) ∧
      ∀ k ∈ findTarget m i j, i ∈ findControl m k j := by
  have hi : i < getNrLines m := lt_nrLines_of_cellAt hc
  have hj : j < getMaxColumn m := lt_maxColumn_of_cellAt hc
  have hpart := cnotPartnersOk_spec hinv hi hj
  rw [hc] at hpart
  obtain ⟨k, hk, hck⟩ := hasTargetFor_spec hpart
  refine ⟨?_, ?_, ?_⟩
  · exact List.ne_nil_of_mem ((mem_findTarget hc).mpr ⟨hk, hck⟩)
  · rw [findTarget_eq_of_control hc]
    exact List.Pairwise.filter _ (List.sorted_lt_range _)
  · intro k2 hk2
    obtain ⟨hk2n, hk2c⟩ := (mem_findTarget hc).mp hk2
    exact (mem_findControl hk2c).mpr ⟨hi, hc⟩

/-- Witness for C1 at the scenario-A sample matrix. -/
theorem C1_partner_symmetry_witness :
    findTarget sampleA 0 1 ≠ [] ∧ (findTarget sampleA 0 1).Pairwise (· < ·) ∧
      0 ∈ findControl sampleA 1 1 := by
  have h := C1_partner_symmetry sampleA 0 1 1 (by decide) (by decide)
  exact ⟨h.1, h.2.1, h.2.2 1 (by decide)⟩

/-- C7: wrong-role partner search returns the empty sequence rather than
failing — findTarget at a cell that is not a CNOT_CONTROL is empty, and
findControl at a cell that is not a CNOT_TARGET is empty. -/
theorem C7_wrong_role_empty (m : CircuitMatrix) (i j : Nat) :
    ((∀ g, cellAt m i j ≠ ReadCell.cell (Cell.cnotControl g)) → findTarget m i j = []) ∧
    ((∀ g, cellAt m i j ≠ ReadCell.cell (Cell.cnotTarget g)) → findControl m i j = []) := by
  constructor
  · intro h
    unfold findTarget
    cases hc : cellAt m i j with
    | empty => rfl
    | cell c =>
      cases c with
      | cnotControl g => exact absurd hc (h g)
      | wire => rfl
      | input => rfl
      | distillationAncillaInput => rfl
      | output => rfl
      | initialisation b => rfl
      | measurement b => rfl
      | cnotTarget g => rfl
  · intro h
    unfold findControl
    cases hc : cellAt m i j with
    | empty => rfl
    | cell c =>
      cases c with
      | cnotTarget g => exact absurd hc (h g)
      | wire => rfl
      | input => rfl
      | distillationAncillaInput => rfl
      | output => rfl
      | initialisation b => rfl
      | measurement b => rfl
      | cnotControl g => rfl

/-- Witness for C7 at an initialisation cell of the scenario-A sample matrix. -/
theorem C7_wrong_role_empty_witness :
    findTarget sampleA 0 0 = [] ∧ findControl sampleA 0 0 = [] := by
  have h := C7_wrong_role_empty sampleA 0 0
  have hv : cellAt sampleA 0 0 = ReadCell.cell (Cell.initialisation 0) := by decide
  refine ⟨h.1 ?_, h.2 ?_⟩ <;>
    · intro g hg
      rw [hv] at hg
      simp at hg

/-- Reduction of the checked read at an in-bounds coordinate. -/
theorem readCellE_ok {m : CircuitMatrix} {i j : Nat}
    (hi : i < getNrLines m) (hj : j < getMaxColumn m) :
    readCellE m i j = Except.ok (cellAt m i j) := by
  unfold readCellE
  rw [if_pos hi, if_pos hj]

/-- Reduction of Except.map on a successful read. -/
theorem exceptMap_ok {f : ReadCell → Bool} {r : ReadCell} :
    (Except.ok r : Except Err ReadCell).map f = Except.ok (f r) := rfl

/-- C3: classification exclusivity — at every in-bounds coordinate, including
logical-padding coordinates, exactly one of isInput, isOutput, isWire, isEmpty,
isInitialisation, isMeasurement and the gate-role classification returns true,
and whenever isDistillationAncillaInput is true, isInput is also true. -/
theorem C3_classification_exclusive (m : CircuitMatrix) (i j : Nat)
    (hi : i < getNrLines m) (hj : j < getMaxColumn m) :
    List.countP okTrue
      [isInput m i j, isOutput m i j, isWire m i j, isEmpty m i j,
       isInitialisation m i j, isMeasurement m i j, isGate m i j] = 1 ∧
    (isDistillationAncillaInput m i j = Except.ok true → isInput m i j = Except.ok true) := by
  have hr := readCellE_ok hi hj
  constructor
  · simp only [isInput, isOutput, isWire, isEmpty, isInitialisation, isMeasurement,
      isGate, hr, exceptMap_ok]
    cases hcell : cellAt m i j with
    | empty => rfl
    | cell c => cases c <;> rfl
  · intro hd
    simp only [isDistillationAncillaInput, hr, exceptMap_ok, Except.ok.injEq] at hd
    simp only [isInput, hr, exceptMap_ok, Except.ok.injEq]
    cases hcell : cellAt m i j with
    | empty =>
      rw [hcell] at hd
      exact Bool.noConfusion hd
    | cell c =>
      rw [hcell] at hd
      cases c <;> first | rfl | exact Bool.noConfusion hd

/-- Witness for C3 at an initialisation cell of the scenario-A sample matrix. -/
theorem C3_classification_exclusive_witness :
    List.countP okTrue
      [isInput sampleA 0 0, isOutput sampleA 0 0, isWire sampleA 0 0, isEmpty sampleA 0 0,
       isInitialisation sampleA 0 0, isMeasurement sampleA 0 0, isGate sampleA 0 0] = 1 :=
  (C3_classification_exclusive sampleA 0 0 (by decide) (by decide)).1

/-- C6: isEmpty is true precisely at coordinates beyond the line's physical
length but within the matrix's column bound, and is never simultaneously true
with isWire, which requires a physically stored WIRE cell. -/
theorem C6_isEmpty_padding (m : CircuitMatrix) (i j : Nat)
    (hi : i < getNrLines m) (hj : j < getMaxColumn m) :
    (isEmpty m i j = Except.ok true ↔ indexLessThanSize m i j = false) ∧
    ¬(isEmpty m i j = Except.ok true ∧ isWire m i j = Except.ok true) := by
  have hr := readCellE_ok hi hj
  have hsome : ∃ ln2, m.circ[i]? = some ln2 := by
    cases hl : m.circ[i]? with
    | some ln2 => exact ⟨ln2, rfl⟩
    | none => exact absurd (List.getElem?_eq_none_iff.mp hl) (not_le.mpr hi)
  obtain ⟨ln, hl⟩ := hsome
  have hgetD : m.circ.getD i [] = ln := by
    rw [List.getD_eq_getElem?_getD, hl]
    rfl
  constructor
  · simp only [isEmpty, hr, exceptMap_ok, Except.ok.injEq]
    unfold indexLessThanSize
    rw [hgetD]
    unfold cellAt
    rw [hl]
    cases hc : ln[j]? with
    | some c =>
      have hlt : j < List.length ln := (List.getElem?_eq_some_iff.mp hc).fst
      simp [classEmpty, hlt]
    | none =>
      have hle : List.length ln ≤ j := List.getElem?_eq_none_iff.mp hc
      simp [classEmpty, hc, Nat.not_lt.mpr hle]
  · intro hcon
    obtain ⟨he, hw⟩ := hcon
    simp only [isEmpty, isWire, hr, exceptMap_ok, Except.ok.injEq] at he hw
    cases hcell : cellAt m i j with
    | empty =>
      rw [hcell] at hw
      exact Bool.noConfusion hw
    | cell c =>
      rw [hcell] at he
      exact Bool.noConfusion he

/-- Witness for C6 at a padding coordinate of the scenario-D sample matrix:
line 2 has physical length 1, while the matrix has three columns. -/
theorem C6_isEmpty_padding_witness : isEmpty sampleD 2 1 = Except.ok true :=
  (C6_isEmpty_padding sampleD 2 1 (by decide) (by decide)).1.mpr (by decide)

/-- C8: classification totality — every classification predicate returns a
successful Boolean (never an OutOfRange failure) at every in-bounds coordinate,
including padding coordinates beyond the line's physical length. -/
theorem C8_classification_total (m : CircuitMatrix) (i j : Nat)
    (hi : i < getNrLines m) (hj : j < getMaxColumn m) :
    (isInput m i j).isOk = true ∧ (isOutput m i j).isOk = true ∧
    (isDistillationAncillaInput m i j).isOk = true ∧ (isWire m i j).isOk = true ∧
    (isEmpty m i j).isOk = true ∧ (isInitialisation m i j).isOk = true ∧
    (isMeasurement m i j).isOk = true := by
  have hr := readCellE_ok hi hj
  refine ⟨?_, ?_, ?_, ?_, ?_, ?_, ?_⟩ <;>
    simp [isInput, isOutput, isDistillationAncillaInput, isWire, isEmpty,
      isInitialisation, isMeasurement, hr, exceptMap_ok, Except.isOk, Except.toBool]

/-- Witness for C8 at a padding coordinate of the scenario-D sample matrix. -/
theorem C8_classification_total_witness :
    (isInput sampleD 2 1).isOk = true ∧ (isOutput sampleD 2 1).isOk = true ∧
    (isDistillationAncillaInput sampleD 2 1).isOk = true ∧ (isWire sampleD 2 1).isOk = true ∧
    (isEmpty sampleD 2 1).isOk = true ∧ (isInitialisation sampleD 2 1).isOk = true ∧
    (isMeasurement sampleD 2 1).isOk = true :=
  C8_classification_total sampleD 2 1 (by decide) (by decide)

example : findTarget sampleA 0 1 = [1] := by decide
example : findControl sampleA 1 1 = [0] := by decide
example : cnotPartnersOk sampleA = true := by decide
example : keptColumns sampleD = [0, 2] := by decide
example : removeEmptyColumns sampleD =
    CircuitMatrix.mk
      [[Cell.cnotControl 1, Cell.cnotControl 2],
       [Cell.cnotTarget 1, Cell.cnotTarget 2],
       [Cell.input]] := by decide

/-- Shifted read through inserted padding: the cell an insertion pushed right
by the pad length is the original cell (general list form). -/
theorem getElem?_pad_shift {α : Type} (ln pad : List α) {b c : Nat} (hbc : b ≤ c) :
    (ln.take b ++ pad ++ ln.drop b)[c + pad.length]? = ln[c]? := by
  have h1 : (ln.take b ++ pad).length ≤ c + pad.length := by
    rw [List.length_append, List.length_take]
    have hm : min b (List.length ln) ≤ c := le_trans (min_le_left _ _) hbc
    omega
  rw [List.getElem?_append_right h1, List.length_append, List.length_take]
  rcases Nat.le_total b (List.length ln) with hble | hlen
  · rw [min_eq_left hble]
    have he : c + pad.length - (b + pad.length) = c - b := by omega
    rw [he, List.getElem?_drop]
    have he2 : b + (c - b) = c := by omega
    rw [he2]
  · rw [min_eq_right hlen]
    have hdrop : ln.drop b = ([] : List α) := List.drop_eq_nil_of_le hlen
    rw [hdrop]
    have h2 : ln[c]? = none := List.getElem?_eq_none (le_trans hlen hbc)
    simp [h2]

/-- Column insertion does not change the number of lines. -/
theorem getNrLines_insertColumns (m : CircuitMatrix) (b n : Nat) :
    getNrLines (insertColumns m b n) = getNrLines m := by
  simp [getNrLines, insertColumns]

/-- Cells at or after the insertion point shift right uniformly by the number
of inserted columns. -/
theorem cellAt_insertColumns {m : CircuitMatrix} (b n : Nat) {c : Nat} (hbc : b ≤ c)
    (i : Nat) : cellAt (insertColumns m b n) i (c + n) = cellAt m i c := by
  unfold cellAt insertColumns
  simp only [List.getElem?_map]
  cases hl : m.circ[i]? with
  | none => rfl
  | some ln =>
    simp only [Option.map_some']
    have hsh := getElem?_pad_shift ln (List.replicate n Cell.wire) hbc
    rw [List.length_replicate] at hsh
    rw [hsh]

/-- C2: column-insert shift preserves gates — after insertColumns(b, n) with
b ≤ c, every cell of column c (hence every gate instance and its role
assignment) reappears at column c + n on the same lines, and findTarget and
findControl at the shifted column return exactly the line sets they returned at
column c before the insertion. -/
theorem C2_insertColumns_shift (m : CircuitMatrix) (b n c : Nat) (hbc : b ≤ c) :
    (∀ i, cellAt (insertColumns m b n) i (c + n) = cellAt m i c) ∧
    (∀ i, findTarget (insertColumns m b n) i (c + n) = findTarget m i c) ∧
    (∀ i, findControl (insertColumns m b n) i (c + n) = findControl m i c) := by
  refine ⟨fun i => cellAt_insertColumns b n hbc i, fun i => ?_, fun i => ?_⟩
  · unfold findTarget
    rw [cellAt_insertColumns b n hbc i, getNrLines_insertColumns]
    cases hcell : cellAt m i c with
    | empty => rfl
    | cell ccell =>
      cases ccell with
      | cnotControl g =>
        refine List.filter_congr ?_
        intro k hk
        rw [cellAt_insertColumns b n hbc k]
      | wire => rfl
      | input => rfl
      | distillationAncillaInput => rfl
      | output => rfl
      | initialisation bb => rfl
      | measurement bb => rfl
      | cnotTarget g => rfl
  · unfold findControl
    rw [cellAt_insertColumns b n hbc i, getNrLines_insertColumns]
    cases hcell : cellAt m i c with
    | empty => rfl
    | cell ccell =>
      cases ccell with
      | cnotTarget g =>
        refine List.filter_congr ?_
        intro k hk
        rw [cellAt_insertColumns b n hbc k]
      | wire => rfl
      | input => rfl
      | distillationAncillaInput => rfl
      | output => rfl
      | initialisation bb => rfl
      | measurement bb => rfl
      | cnotControl g => rfl

/-- Witness for C2: scenario B — inserting two columns before column 1 of the
scenario-A matrix moves the CNOT to column 3 with findTarget unchanged. -/
theorem C2_insertColumns_shift_witness :
    findTarget (insertColumns sampleA 1 2) 0 (1 + 2) = findTarget sampleA 0 1 :=
  (C2_insertColumns_shift sampleA 1 2 1 (by decide)).2.1 0

/-- C10: insertRows contract — the call fails with OutOfRange exactly when the
position is outside the closed interval from 0 to size(); on failure the matrix
is unchanged; in range, the rows are spliced immediately before the position,
the prefix is intact, and later lines shift down by the inserted count. -/
theorem C10_insertRows_contract (m : CircuitMatrix) (b : Int) (rows : List Qubitline) :
    (insertRows m b rows = Except.error Err.outOfRange ↔ ¬(0 ≤ b ∧ b ≤ (size m : Int))) ∧
    (¬(0 ≤ b ∧ b ≤ (size m : Int)) → insertRowsExec m b rows = m) ∧
    ((0 ≤ b ∧ b ≤ (size m : Int)) →
      (∀ t, t < b.toNat → (insertRowsExec m b rows).circ[t]? = m.circ[t]?) ∧
      (∀ s, s < rows.length → (insertRowsExec m b rows).circ[b.toNat + s]? = rows[s]?) ∧
      (∀ t, (insertRowsExec m b rows).circ[b.toNat + rows.length + t]? =
        m.circ[b.toNat + t]?) ∧
      size (insertRowsExec m b rows) = size m + rows.length) := by
  by_cases hb : 0 ≤ b ∧ b ≤ (size m : Int)
  · have hoki : insertRows m b rows = Except.ok (CircuitMatrix.mk
        (m.circ.take b.toNat ++ rows ++ m.circ.drop b.toNat)) := by
      unfold insertRows
      rw [if_pos hb]
    have hexec : insertRowsExec m b rows = CircuitMatrix.mk
        (m.circ.take b.toNat ++ rows ++ m.circ.drop b.toNat) := by
      unfold insertRowsExec
      rw [hoki]
    have hbn : b.toNat ≤ m.circ.length := by
      obtain ⟨hb0, hbs⟩ := hb
      simp only [size] at hbs
      omega
    have htl : (m.circ.take b.toNat).length = b.toNat := by
      rw [List.length_take]
      exact min_eq_left hbn
    refine ⟨?_, fun h => absurd hb h, fun _ => ⟨?_, ?_, ?_, ?_⟩⟩
    · rw [hoki]
      constructor
      · intro h
        exact absurd h (by simp)
      · intro h
        exact absurd hb h
    · intro t ht
      rw [hexec]
      show (m.circ.take b.toNat ++ rows ++ m.circ.drop b.toNat)[t]? = m.circ[t]?
      have h1 : t < (m.circ.take b.toNat ++ rows).length := by
        rw [List.length_append, htl]
        omega
      have h2 : t < (m.circ.take b.toNat).length := by
        rw [htl]
        exact ht
      rw [List.getElem?_append_left h1, List.getElem?_append_left h2,
        List.getElem?_take_of_lt ht]
    · intro s hs
      rw [hexec]
      show (m.circ.take b.toNat ++ rows ++ m.circ.drop b.toNat)[b.toNat + s]? = rows[s]?
      have h1 : b.toNat + s < (m.circ.take b.toNat ++ rows).length := by
        rw [List.length_append, htl]
        omega
      have h2 : (m.circ.take b.toNat).length ≤ b.toNat + s := by
        rw [htl]
        omega
      rw [List.getElem?_append_left h1, List.getElem?_append_right h2, htl]
      have h3 : b.toNat + s - b.toNat = s := by omega
      rw [h3]
    · intro t
      rw [hexec]
      show (m.circ.take b.toNat ++ rows ++ m.circ.drop b.toNat)[b.toNat + rows.length + t]? =
        m.circ[b.toNat + t]?
      have h1 : (m.circ.take b.toNat ++ rows).length ≤ b.toNat + rows.length + t := by
        rw [List.length_append, htl]
        omega
      rw [List.getElem?_append_right h1, List.length_append, htl]
      have h2 : b.toNat + rows.length + t - (b.toNat + rows.length) = t := by omega
      rw [h2, List.getElem?_drop]
    · rw [hexec]
      show (m.circ.take b.toNat ++ rows ++ m.circ.drop b.toNat).length =
        m.circ.length + rows.length
      rw [List.length_append, List.length_append, htl, List.length_drop]
      omega
  · have herr : insertRows m b rows = Except.error Err.outOfRange := by
      unfold insertRows
      rw [if_neg hb]
    refine ⟨?_, ?_, fun h => absurd h hb⟩
    · rw [herr]
      simp [hb]
    · intro _
      unfold insertRowsExec
      rw [herr]

/-- Witness for C10 at concrete calls: an out-of-range insertion (position 5 in
a 2-line matrix) leaves the matrix unchanged, and an in-range insertion at the
front grows the row count by the inserted count. -/
theorem C10_insertRows_contract_witness :
    insertRowsExec sampleA 5 [] = sampleA ∧
    size (insertRowsExec sampleA 0 [[Cell.wire]]) = size sampleA + 1 := by
  constructor
  · exact (C10_insertRows_contract sampleA 5 []).2.1 (by decide)
  · exact (((C10_insertRows_contract sampleA 0 [[Cell.wire]]).2.2 (by decide)).2.2).2

/-- Any member of a findTarget result carries a CNOT_TARGET cell in that column. -/
theorem cellAt_of_mem_findTarget {m : CircuitMatrix} {i j k : Nat}
    (hk : k ∈ findTarget m i j) :
    ∃ g, cellAt m k j = ReadCell.cell (Cell.cnotTarget g) := by
  unfold findTarget at hk
  revert hk
  cases hcell : cellAt m i j with
  | empty => exact fun hk => absurd hk (List.not_mem_nil k)
  | cell c =>
    cases c with
    | cnotControl g =>
      intro hk
      rw [List.mem_filter] at hk
      exact ⟨g, of_decide_eq_true hk.2⟩
    | wire => exact fun hk => absurd hk (List.not_mem_nil k)
    | input => exact fun hk => absurd hk (List.not_mem_nil k)
    | distillationAncillaInput => exact fun hk => absurd hk (List.not_mem_nil k)
    | output => exact fun hk => absurd hk (List.not_mem_nil k)
    | initialisation bb => exact fun hk => absurd hk (List.not_mem_nil k)
    | measurement bb => exact fun hk => absurd hk (List.not_mem_nil k)
    | cnotTarget g => exact fun hk => absurd hk (List.not_mem_nil k)

/-- Any member of a findControl result carries a CNOT_CONTROL cell in that column. -/
theorem cellAt_of_mem_findControl {m : CircuitMatrix} {i j k : Nat}
    (hk : k ∈ findControl m i j) :
    ∃ g, cellAt m k j = ReadCell.cell (Cell.cnotControl g) := by
  unfold findControl at hk
  revert hk
  cases hcell : cellAt m i j with
  | empty => exact fun hk => absurd hk (List.not_mem_nil k)
  | cell c =>
    cases c with
    | cnotTarget g =>
      intro hk
      rw [List.mem_filter] at hk
      exact ⟨g, of_decide_eq_true hk.2⟩
    | wire => exact fun hk => absurd hk (List.not_mem_nil k)
    | input => exact fun hk => absurd hk (List.not_mem_nil k)
    | distillationAncillaInput => exact fun hk => absurd hk (List.not_mem_nil k)
    | output => exact fun hk => absurd hk (List.not_mem_nil k)
    | initialisation bb => exact fun hk => absurd hk (List.not_mem_nil k)
    | measurement bb => exact fun hk => absurd hk (List.not_mem_nil k)
    | cnotControl g => exact fun hk => absurd hk (List.not_mem_nil k)

/-- A line holding a non-wire cell is not unused. -/
theorem lineIsUnused_false_of_cell {ln : Qubitline} {j : Nat} {c : Cell}
    (hc : ln[j]? = some c) (hcw : c ≠ Cell.wire) : lineIsUnused ln = false := by
  have hmem : c ∈ ln := List.mem_iff_getElem?.mpr ⟨j, hc⟩
  cases hall : lineIsUnused ln with
  | false => rfl
  | true =>
    unfold lineIsUnused at hall
    have hwc := List.all_eq_true.mp hall c hmem
    cases c with
    | wire => exact absurd rfl hcw
    | input => exact Bool.noConfusion hwc
    | distillationAncillaInput => exact Bool.noConfusion hwc
    | output => exact Bool.noConfusion hwc
    | initialisation bb => exact Bool.noConfusion hwc
    | measurement bb => exact Bool.noConfusion hwc
    | cnotControl g => exact Bool.noConfusion hwc
    | cnotTarget g => exact Bool.noConfusion hwc

/-- C5: empty-row removal preserves gate lines — a line referenced by any
findTarget or findControl result is kept by removeEmptyRows, and the remaining
lines are a sublist of the original ones (relative order preserved). -/
theorem C5_removeEmptyRows_preserves_gate_lines (m : CircuitMatrix) (i j k : Nat)
    (hk : k ∈ findTarget m i j ∨ k ∈ findControl m i j) :
    m.circ.getD k [] ∈ (removeEmptyRows m).circ ∧
    (removeEmptyRows m).circ.Sublist m.circ := by
  have hcell : ∃ c, cellAt m k j = ReadCell.cell c ∧ c ≠ Cell.wire := by
    rcases hk with hk | hk
    · obtain ⟨g, hg⟩ := cellAt_of_mem_findTarget hk
      exact ⟨Cell.cnotTarget g, hg, by simp⟩
    · obtain ⟨g, hg⟩ := cellAt_of_mem_findControl hk
      exact ⟨Cell.cnotControl g, hg, by simp⟩
  obtain ⟨c, hc, hcw⟩ := hcell
  obtain ⟨ln, hl, hlc⟩ := cellAt_eq_cell.mp hc
  have hunused : lineIsUnused ln = false := lineIsUnused_false_of_cell hlc hcw
  have hgetD : m.circ.getD k [] = ln := by
    rw [List.getD_eq_getElem?_getD, hl]
    rfl
  constructor
  · rw [hgetD]
    unfold removeEmptyRows
    refine List.mem_filter.mpr ⟨List.mem_iff_getElem?.mpr ⟨k, hl⟩, ?_⟩
    rw [hunused]
    rfl
  · exact List.filter_sublist m.circ

/-- Witness for C5: the wire-only middle line of sampleE is removed while the
gate-carrying line 2 survives, in order. -/
theorem C5_removeEmptyRows_preserves_gate_lines_witness :
    sampleE.circ.getD 2 [] ∈ (removeEmptyRows sampleE).circ ∧
    (removeEmptyRows sampleE).circ.Sublist sampleE.circ :=
  C5_removeEmptyRows_preserves_gate_lines sampleE 0 0 2 (Or.inl (by decide))

/-- Every member of a list of naturals is at most its listMax. -/
theorem mem_le_listMax {l : List Nat} {x : Nat} (h : x ∈ l) : x ≤ listMax l := by
  induction l with
  | nil => cases h
  | cons a rest ih =>
    cases h with
    | head => exact le_max_left _ _
    | tail _ hmem => exact le_trans (ih hmem) (le_max_right _ _)

/-- The listMax of a non-empty list of naturals is one of its members. -/
theorem listMax_mem {l : List Nat} (h : l ≠ []) : listMax l ∈ l := by
  induction l with
  | nil => exact absurd rfl h
  | cons a rest ih =>
    by_cases hr : rest = []
    · subst hr
      show max a (listMax []) ∈ [a]
      simp [listMax]
    · rcases le_total a (listMax rest) with hle | hle
      · have hmax : listMax (a :: rest) = listMax rest := max_eq_right hle
        rw [hmax]
        exact List.mem_cons_of_mem a (ih hr)
      · have hmax : listMax (a :: rest) = a := max_eq_left hle
        rw [hmax]
        exact List.mem_cons_self a rest

/-- Indexing a filterMap of list reads along an ascending index list agrees
with reading through the index list: once a read is past the end, all later
reads are too, so no interior element is skipped. -/
theorem filterMap_getElem?_sorted {α : Type} (l : List α) :
    ∀ (ks : List Nat), ks.Pairwise (· ≤ ·) → ∀ (k : Nat),
      (ks.filterMap fun j => l[j]?)[k]? = ks[k]?.bind fun j => l[j]? := by
  intro ks
  induction ks with
  | nil =>
    intro _ k
    simp
  | cons a rest ih =>
    intro hp k
    have hrest : rest.Pairwise (· ≤ ·) := (List.pairwise_cons.mp hp).2
    have hale : ∀ b2 ∈ rest, a ≤ b2 := (List.pairwise_cons.mp hp).1
    cases hla : l[a]? with
    | some c =>
      rw [List.filterMap_cons_some hla]
      cases k with
      | zero => simp [hla]
      | succ k2 =>
        rw [List.getElem?_cons_succ, List.getElem?_cons_succ]
        exact ih hrest k2
    | none =>
      have hnone : ∀ b2 ∈ rest, l[b2]? = none := fun b2 hb2 =>
        List.getElem?_eq_none (le_trans (List.getElem?_eq_none_iff.mp hla) (hale b2 hb2))
      have hnil : rest.filterMap (fun j => l[j]?) = [] :=
        List.filterMap_eq_nil_iff.mpr hnone
      rw [List.filterMap_cons_none hla, hnil]
      cases k with
      | zero => simp [hla]
      | succ k2 =>
        rw [List.getElem?_cons_succ]
        cases hrk : rest[k2]? with
        | none => simp
        | some bb =>
          have hbmem : bb ∈ rest := List.mem_iff_getElem?.mpr ⟨k2, hrk⟩
          simp [hnone bb hbmem]

/-- The kept-columns list is strictly ascending. -/
theorem keptColumns_pairwise (m : CircuitMatrix) : (keptColumns m).Pairwise (· < ·) :=
  List.Pairwise.filter _ (List.sorted_lt_range _)

/-- A column index is kept iff it is in bounds and its column is not all
WIRE/EMPTY. -/
theorem mem_keptColumns {m : CircuitMatrix} {j : Nat} :
    j ∈ keptColumns m ↔ j < getMaxColumn m ∧ columnIsEmpty m j = false := by
  unfold keptColumns
  rw [List.mem_filter, List.mem_range]
  simp

/-- Unfolding of the all-WIRE/EMPTY column test. -/
theorem columnIsEmpty_true_iff {m : CircuitMatrix} {j : Nat} :
    columnIsEmpty m j = true ↔
      ∀ i, i < getNrLines m → wireOrEmpty (cellAt m i j) = true := by
  unfold columnIsEmpty
  rw [List.all_eq_true]
  constructor
  · intro h i hi
    exact h i (List.mem_range.mpr hi)
  · intro h i hi
    exact h i (List.mem_range.mp hi)

/-- A column is not all WIRE/EMPTY iff some line carries a marker there. -/
theorem columnIsEmpty_false_iff {m : CircuitMatrix} {j : Nat} :
    columnIsEmpty m j = false ↔
      ∃ i, i < getNrLines m ∧ wireOrEmpty (cellAt m i j) = false := by
  rw [← Bool.not_eq_true, columnIsEmpty_true_iff]
  push_neg
  simp only [Bool.not_eq_true]

/-- Row count is unchanged by removeEmptyColumns. -/
theorem getNrLines_removeEmptyColumns (m : CircuitMatrix) :
    getNrLines (removeEmptyColumns m) = getNrLines m := by
  simp [getNrLines, removeEmptyColumns]

/-- The cell of the pruned matrix at shifted column k is the original cell at
the k-th kept column (or the logical EMPTY when k is past the kept columns). -/
theorem cellAt_removeEmptyColumns (m : CircuitMatrix) (i k : Nat) :
    cellAt (removeEmptyColumns m) i k =
      match (keptColumns m)[k]? with
      | some jk => cellAt m i jk
      | none => ReadCell.empty := by
  unfold cellAt removeEmptyColumns
  simp only [List.getElem?_map]
  cases hl : m.circ[i]? with
  | none =>
    cases hkk : (keptColumns m)[k]? with
    | none => rfl
    | some jk => rfl
  | some ln =>
    simp only [Option.map_some']
    have hs := filterMap_getElem?_sorted ln (keptColumns m)
      ((keptColumns_pairwise m).imp fun hab => le_of_lt hab) k
    rw [hs]
    cases hkk : (keptColumns m)[k]? with
    | none => rfl
    | some jk => rfl

/-- A column carrying a non-WIRE physical cell is kept. -/
theorem gate_column_kept {m : CircuitMatrix} {i j : Nat} {c : Cell}
    (hc : cellAt m i j = ReadCell.cell c)
    (hgate : wireOrEmpty (ReadCell.cell c) = false) : j ∈ keptColumns m := by
  refine mem_keptColumns.mpr ⟨lt_maxColumn_of_cellAt hc, ?_⟩
  refine columnIsEmpty_false_iff.mpr ⟨i, lt_nrLines_of_cellAt hc, ?_⟩
  rw [hc]
  exact hgate

/-- A filterMap whose function always succeeds preserves list length. -/
theorem length_filterMap_of_all_some {α β : Type} (f : α → Option β) :
    ∀ (l : List α), (∀ a ∈ l, ∃ b2, f a = some b2) →
      (l.filterMap f).length = l.length := by
  intro l
  induction l with
  | nil =>
    intro _
    rfl
  | cons a rest ih =>
    intro h
    obtain ⟨b2, hb2⟩ := h a (List.mem_cons_self a rest)
    rw [List.filterMap_cons_some hb2]
    simp only [List.length_cons]
    rw [ih fun x hx => h x (List.mem_cons_of_mem a hx)]

/-- After pruning, the column count equals the number of kept columns. -/
theorem getMaxColumn_removeEmptyColumns (m : CircuitMatrix) :
    getMaxColumn (removeEmptyColumns m) = (keptColumns m).length := by
  apply le_antisymm
  · apply maxLen_le
    intro ln2 hmem
    have hmem2 : ln2 ∈ (removeEmptyColumns m).circ := hmem
    unfold removeEmptyColumns at hmem2
    rw [List.mem_map] at hmem2
    obtain ⟨ln, hln, hfl⟩ := hmem2
    rw [← hfl]
    exact List.length_filterMap_le _ _
  · by_cases hkn : keptColumns m = []
    · rw [hkn]
      exact Nat.zero_le _
    · have hjm : listMax (keptColumns m) ∈ keptColumns m := listMax_mem hkn
      obtain ⟨hjlt, hjne⟩ := mem_keptColumns.mp hjm
      obtain ⟨i0, hi0, hw0⟩ := columnIsEmpty_false_iff.mp hjne
      have hcellc : ∃ c, cellAt m i0 (listMax (keptColumns m)) = ReadCell.cell c := by
        cases hcell : cellAt m i0 (listMax (keptColumns m)) with
        | cell c => exact ⟨c, rfl⟩
        | empty =>
          rw [hcell] at hw0
          exact absurd hw0 (by simp [wireOrEmpty])
      obtain ⟨c, hcell⟩ := hcellc
      obtain ⟨ln, hl, hlc⟩ := cellAt_eq_cell.mp hcell
      have hjlen : listMax (keptColumns m) < List.length ln :=
        (List.getElem?_eq_some_iff.mp hlc).fst
      have hall : ∀ j ∈ keptColumns m, ∃ b2, ln[j]? = some b2 := by
        intro j hj
        have hlt : j < List.length ln := lt_of_le_of_lt (mem_le_listMax hj) hjlen
        exact ⟨ln[j], List.getElem?_eq_getElem hlt⟩
      have hlen := length_filterMap_of_all_some (fun j => ln[j]?) (keptColumns m) hall
      have hmm2 : (keptColumns m).filterMap (fun j => ln[j]?) ∈ (removeEmptyColumns m).circ := by
        unfold removeEmptyColumns
        exact List.mem_map_of_mem _ (List.mem_iff_getElem?.mpr ⟨i0, hl⟩)
      calc (keptColumns m).length
        _ = ((keptColumns m).filterMap fun j => ln[j]?).length := hlen.symm
        _ ≤ getMaxColumn (removeEmptyColumns m) := maxLen_ge hmm2

/-- C4: removeEmptyColumns deletes exactly the columns whose every line reads
WIRE or logically EMPTY — a column is kept iff some line carries another
marker there; the kept columns reappear contiguously and left-shifted in their
original ascending order; the column count becomes the number of kept columns;
and a column holding a CNOT control or target cell is never removed. -/
theorem C4_removeEmptyColumns_exact (m : CircuitMatrix) :
    (∀ j, j ∈ keptColumns m ↔ j < getMaxColumn m ∧
      ¬(∀ i, i < getNrLines m → wireOrEmpty (cellAt m i j) = true)) ∧
    (∀ i k jk, (keptColumns m)[k]? = some jk →
      cellAt (removeEmptyColumns m) i k = cellAt m i jk) ∧
    (keptColumns m).Pairwise (· < ·) ∧
    getMaxColumn (removeEmptyColumns m) = (keptColumns m).length ∧
    (∀ i j g, cellAt m i j = ReadCell.cell (Cell.cnotControl g) ∨
        cellAt m i j = ReadCell.cell (Cell.cnotTarget g) → j ∈ keptColumns m) := by
  refine ⟨?_, ?_, keptColumns_pairwise m, getMaxColumn_removeEmptyColumns m, ?_⟩
  · intro j
    rw [mem_keptColumns, ← Bool.not_eq_true, columnIsEmpty_true_iff]
  · intro i k jk hjk
    have h := cellAt_removeEmptyColumns m i k
    rw [hjk] at h
    exact h
  · intro i j g hg
    rcases hg with hg | hg
    · exact gate_column_kept hg rfl
    · exact gate_column_kept hg rfl

/-- Witness for C4 at the scenario-D sample matrix: the surviving column 2
moves to position 1 and the gate column 0 is kept. -/
theorem C4_removeEmptyColumns_exact_witness :
    cellAt (removeEmptyColumns sampleD) 0 1 = cellAt sampleD 0 2 ∧
    (0 : Nat) ∈ keptColumns sampleD := by
  have h := C4_removeEmptyColumns_exact sampleD
  exact ⟨h.2.1 0 1 2 (by decide), h.2.2.2.2 0 0 1 (Or.inl (by decide))⟩

/-- After pruning, every remaining column index is kept: the kept columns of
the pruned matrix are the full range of its column count. -/
theorem keptColumns_removeEmptyColumns (m : CircuitMatrix) :
    keptColumns (removeEmptyColumns m) =
      List.range (getMaxColumn (removeEmptyColumns m)) := by
  unfold keptColumns
  apply List.filter_eq_self.mpr
  intro k hk
  rw [List.mem_range] at hk
  have hkk : k < (keptColumns m).length := by
    rw [← getMaxColumn_removeEmptyColumns m]
    exact hk
  have hjk : (keptColumns m)[k]? = some (keptColumns m)[k] := List.getElem?_eq_getElem hkk
  have hjkm : (keptColumns m)[k] ∈ keptColumns m := List.mem_iff_getElem?.mpr ⟨k, hjk⟩
  obtain ⟨hjlt, hjne⟩ := mem_keptColumns.mp hjkm
  obtain ⟨i0, hi0, hw0⟩ := columnIsEmpty_false_iff.mp hjne
  rw [Bool.not_eq_true']
  apply columnIsEmpty_false_iff.mpr
  refine ⟨i0, ?_, ?_⟩
  · rw [getNrLines_removeEmptyColumns]
    exact hi0
  · have hre := cellAt_removeEmptyColumns m i0 k
    rw [hjk] at hre
    rw [hre]
    exact hw0

/-- A filterMap of list reads along the full range recovers the prefix. -/
theorem filterMap_getElem?_range {α : Type} (l : List α) (n : Nat) :
    (List.range n).filterMap (fun j => l[j]?) = l.take n := by
  induction n with
  | zero => rfl
  | succ n2 ih =>
    rw [List.range_succ, List.filterMap_append, ih, List.take_succ]
    congr 1

/-- C9: empty-column removal is idempotent — pruning an already pruned matrix
changes nothing, for every matrix state. -/
theorem C9_removeEmptyColumns_idempotent (m : CircuitMatrix) :
    removeEmptyColumns (removeEmptyColumns m) = removeEmptyColumns m := by
  show CircuitMatrix.mk ((removeEmptyColumns m).circ.map fun ln =>
      (keptColumns (removeEmptyColumns m)).filterMap fun j => ln[j]?) =
    removeEmptyColumns m
  rw [keptColumns_removeEmptyColumns]
  have hmap : ((removeEmptyColumns m).circ.map fun ln =>
      (List.range (getMaxColumn (removeEmptyColumns m))).filterMap fun j => ln[j]?) =
      (removeEmptyColumns m).circ.map id := by
    apply List.map_congr_left
    intro ln hln
    rw [filterMap_getElem?_range]
    exact List.take_of_length_le (maxLen_ge hln)
  rw [hmap, List.map_id]

/-- Witness for C9 at the scenario-D sample matrix. -/
theorem C9_removeEmptyColumns_idempotent_witness :
    removeEmptyColumns (removeEmptyColumns sampleD) = removeEmptyColumns sampleD :=
  C9_removeEmptyColumns_idempotent sampleD

end Teqc
